import Mathlib

/-!
Shallow embedding of the branch-navigator repository (Go) in Lean 4.

Packages are mirrored as namespaces: `git` (internal/git/git.go and the
older parser generation in src/unnamed/part_004), `navigator` (the
Navigator section of git.go), `ui` (src/unnamed/part_006) and `app`
(internal/app/app.go).  Strings are modelled at the character level
(`String.data : List Char`); Go's byte indices into valid UTF-8 agree
with character indices for the ASCII search patterns used here, so the
character-level model is faithful.  Whitespace trimming models the ASCII
fragment of Go's `unicode.IsSpace`, which covers everything git emits.
Fallible Go calls returning `(T, error)` become `Except String T` or
`T × Option _`; external collaborators (the git binary, the terminal)
are abstract oracle functions supplied as arguments.
-/

namespace gostr

/-- ASCII fragment of Go `unicode.IsSpace`. -/
def goIsSpace (c : Char) : Bool :=
  c = ' ' || c = '\t' || c = '\n' || c = '\r' || c = '\x0b' || c = '\x0c'

/-- Go `strings.TrimSpace` (ASCII whitespace fragment). -/
def goTrimSpace (s : String) : String :=
  ⟨((s.data.dropWhile goIsSpace).reverse.dropWhile goIsSpace).reverse⟩

/-- Go `strings.HasPrefix`. -/
def goStartsWith (s pre : String) : Bool :=
  pre.data.isPrefixOf s.data

/-- Go `strings.TrimPrefix`. -/
def goAfterStart (s pre : String) : String :=
  if goStartsWith s pre then ⟨s.data.drop pre.data.length⟩ else s

/-- The cutset `'` `"` of Go `strings.Trim(s, "'\"")`, apostrophe and double quote. -/
def quoteChars : List Char := [Char.ofNat 39, Char.ofNat 34]

/-- Go `strings.Trim(s, "'\"")`: strip leading and trailing quote characters. -/
def goTrimQuotes (s : String) : String :=
  ⟨(((s.data.dropWhile (quoteChars.contains ·)).reverse.dropWhile
      (quoteChars.contains ·)).reverse)⟩

/-- Index (in characters) of the last occurrence of `pat` in `l`;
`none` models Go `strings.LastIndex` returning `-1`. -/
def lastOcc (l pat : List Char) : Option Nat :=
  ((List.range (l.length + 1)).filter fun i => pat.isPrefixOf (l.drop i)).getLast?

/-- Go `strings.Contains s sub`: `sub` occurs contiguously inside `s`. -/
def goContains (s sub : String) : Bool :=
  (List.range (s.data.length + 1)).any fun i => sub.data.isPrefixOf (s.data.drop i)

/-- Go `strings.ToLower` (character-wise). -/
def goToLower (s : String) : String :=
  ⟨s.data.map Char.toLower⟩

/-- Go `strings.IndexAny`: first index of any character of `chars`. -/
def goIndexAny (s : String) (chars : List Char) : Option Nat :=
  s.data.findIdx? (fun c => chars.contains c)

end gostr

namespace git

open gostr

/-- internal/git/git.go `extractBranchFromSubject`: recognize a branch
switch subject line and return the destination branch, `none` for
`("", false)`. -/
def extractBranchFromSubject (subject : String) : Option String :=
  if subject = "" then none
  else if goStartsWith subject "checkout: moving from " then
    let rest := goAfterStart subject "checkout: moving from "
    match lastOcc rest.data " to ".data with
    | none => none
    | some idx =>
      let branch := goTrimQuotes (goTrimSpace ⟨rest.data.drop (idx + 4)⟩)
      if branch = "" then none else some branch
  else if goStartsWith subject "checkout: moving to " then
    let branch := goTrimQuotes (goTrimSpace (goAfterStart subject "checkout: moving to "))
    if branch = "" then none else some branch
  else if goStartsWith subject "checkout: switching to " then
    let branch := goTrimQuotes (goTrimSpace (goAfterStart subject "checkout: switching to "))
    if branch = "" then none else some branch
  else none

/-- Go `strings.Split` with a single-character separator, at the character level. -/
def splitOnChar (sep : Char) : List Char → List (List Char)
  | [] => [[]]
  | c :: rest =>
    match splitOnChar sep rest with
    | [] => [[]]
    | h :: t => if c = sep then [] :: h :: t else (c :: h) :: t

/-- internal/git/git.go `splitAndFilter`: trim, split on newlines, drop blanks. -/
def splitAndFilter (s : String) : List String :=
  ((splitOnChar '\n' (goTrimSpace s).data).map (fun l => goTrimSpace ⟨l⟩)).filter
    (fun line => line ≠ "")

/-- internal/git/git.go `parseReflogSubjects`: the pure core of
`Client.ReflogBranchMoves` (which feeds it `git reflog --format=%gs` output). -/
def parseReflogSubjects (output : String) : List String :=
  (splitAndFilter output).filterMap extractBranchFromSubject

/-- src/unnamed/part_004 `branchFromSuffix`: extract the token after the last
" to " (case-insensitive search), discarding empty, quote-only and
`HEAD`-prefixed destinations, truncating at the first blank. -/
def branchFromSuffix (line : String) : String :=
  match lastOcc (goToLower line).data " to ".data with
  | none => ""
  | some idx =>
    let candidate := goTrimQuotes (goTrimSpace ⟨line.data.drop (idx + 4)⟩)
    if candidate = "" || goStartsWith candidate "HEAD" then ""
    else
      match goIndexAny candidate [' ', '\t'] with
      | some sp => ⟨candidate.data.take sp⟩
      | none => candidate

/-- internal/git/git.go `Client.CurrentBranch`: one runner invocation of
`git rev-parse --abbrev-ref HEAD`.  The runner is abstract
(`args ↦ trimmed stdout or error`), standing for any `Runner`. -/
def CurrentBranch (runner : List String → Except String String) : Except String String :=
  runner ["rev-parse", "--abbrev-ref", "HEAD"]

/-- internal/git/git.go `Client.CheckoutBranch`.  Besides the Go result it
returns the trace of runner invocations (each entry one git argument
vector), so that "never invokes the switch" is observable. -/
def CheckoutBranch (runner : List String → Except String String) (branch : String) :
    Except String String × List (List String) :=
  let branch := goTrimSpace branch
  if branch = "" then (.error "branch name is required", [])
  else
    match CurrentBranch runner with
    | .error e => (.error e, [["rev-parse", "--abbrev-ref", "HEAD"]])
    | .ok current =>
      if branch = current then
        (.ok ("already on '" ++ branch ++ "'"), [["rev-parse", "--abbrev-ref", "HEAD"]])
      else
        match runner ["checkout", branch] with
        | .error e => (.error e, [["rev-parse", "--abbrev-ref", "HEAD"], ["checkout", branch]])
        | .ok out => (.ok out, [["rev-parse", "--abbrev-ref", "HEAD"], ["checkout", branch]])

end git

namespace git

open gostr

/-- C3 counterexample: the reflog subject parser of internal/git/git.go
accepts the destination `HEAD^` of a detached-HEAD checkout entry, so
`ReflogBranchMoves` contributes the candidate `HEAD^` for that entry
instead of discarding it. -/
theorem extractBranchFromSubject_keeps_detached_head :
    extractBranchFromSubject "checkout: moving from main to HEAD^" = some "HEAD^" ∧
      parseReflogSubjects "checkout: moving from main to HEAD^" = ["HEAD^"] := by
  decide

/-- C3 amended: only the parser generation of src/unnamed/part_004
discards detached-HEAD destinations: `branchFromSuffix` never returns a
candidate beginning with the marker `HEAD` (git.go's
`extractBranchFromSubject` performs no such filtering, and raw commit
references are discarded only later, by the navigator's existence
check). -/
theorem branchFromSuffix_discards_head_dest (line : String)
    (h : branchFromSuffix line ≠ "") :
    goStartsWith (branchFromSuffix line) "HEAD" = false := by
  unfold branchFromSuffix at h ⊢
  rcases hocc : lastOcc (goToLower line).data " to ".data with _ | idx
  · rw [hocc] at h
    dsimp only at h
    exact absurd rfl h
  · rw [hocc] at h
    dsimp only at h
    dsimp only
    by_cases hguard :
        (decide (goTrimQuotes (goTrimSpace ⟨line.data.drop (idx + 4)⟩) = "") ||
          goStartsWith (goTrimQuotes (goTrimSpace ⟨line.data.drop (idx + 4)⟩)) "HEAD") = true
    · rw [if_pos hguard] at h
      exact absurd rfl h
    · rw [if_neg hguard] at h
      rw [if_neg hguard]
      simp only [Bool.or_eq_true, not_or, decide_eq_true_eq] at hguard
      obtain ⟨-, hnh⟩ := hguard
      rcases hia : goIndexAny (goTrimQuotes (goTrimSpace ⟨line.data.drop (idx + 4)⟩))
          [' ', '\t'] with _ | sp
      · dsimp only
        exact Bool.not_eq_true _ ▸ hnh
      · dsimp only
        rw [Bool.eq_false_iff]
        intro htake
        apply hnh
        unfold goStartsWith at htake ⊢
        rw [List.isPrefixOf_iff_prefix] at htake ⊢
        exact htake.trans (List.take_prefix _ _)

/-- C6: for a well-formed branch name (non-empty, no surrounding
whitespace, as git branch names and the spec's data model guarantee)
equal to the current branch, `CheckoutBranch` returns the literal
already-on message and its runner trace contains only the rev-parse
call: the checkout command is never invoked. -/
theorem checkoutBranch_short_circuit (runner : List String → Except String String)
    (branch : String) (hne : branch ≠ "") (htrim : goTrimSpace branch = branch)
    (hcur : CurrentBranch runner = .ok branch) :
    (CheckoutBranch runner branch).1 = .ok ("already on '" ++ branch ++ "'") ∧
      (CheckoutBranch runner branch).2 = [["rev-parse", "--abbrev-ref", "HEAD"]] := by
  unfold CheckoutBranch
  dsimp only
  rw [htrim, if_neg hne, hcur]
  dsimp only
  rw [if_pos rfl]
  exact ⟨rfl, rfl⟩

/-- Concrete runner for the C6 witness. -/
def rC6 : List String → Except String String :=
  fun args => if args = ["rev-parse", "--abbrev-ref", "HEAD"] then .ok "main" else .error "x"

theorem checkoutBranch_short_circuit_witness :
    ("main" ≠ "" ∧ goTrimSpace "main" = "main" ∧ CurrentBranch rC6 = .ok "main") ∧
      ((CheckoutBranch rC6 "main").1 = .ok ("already on '" ++ "main" ++ "'") ∧
        (CheckoutBranch rC6 "main").2 = [["rev-parse", "--abbrev-ref", "HEAD"]]) :=
  ⟨⟨by decide, by decide, rfl⟩, checkoutBranch_short_circuit rC6 "main" (by decide) (by decide) rfl⟩

theorem branchFromSuffix_discards_head_dest_witness :
    branchFromSuffix "checkout: moving from main to feature" ≠ "" ∧
      goStartsWith (branchFromSuffix "checkout: moving from main to feature") "HEAD"
        = false :=
  ⟨by decide, branchFromSuffix_discards_head_dest "checkout: moving from main to feature"
    (by decide)⟩

end git

namespace navigator

open gostr

/-- The `GitService` interface of the Navigator section of
internal/git/git.go, as an oracle record: each operation's outcome. -/
structure GitService where
  currentBranch : Except String String
  reflogBranchMoves : Except String (List String)
  branchesByCommitDate : Except String (List String)
  branchExists : String → Except String Bool

/-- internal/git/git.go `Navigator.appendBranches` (lines 553-578):
fold the candidate list into `current`, trimming, skipping blanks,
skipping names already in `seen`, consulting `branchExists` (propagating
its error), and stopping once `limit` names are accumulated.  Returns
the grown list together with the grown `seen` set (Go mutates a map). -/
def appendBranches (g : GitService) (limit : Nat) :
    List String → List String → List String → Except String (List String × List String)
  | current, [], seen => .ok (current, seen)
  | current, c :: rest, seen =>
    if goTrimSpace c = "" then appendBranches g limit current rest seen
    else if seen.contains (goTrimSpace c) then appendBranches g limit current rest seen
    else
      match g.branchExists (goTrimSpace c) with
      | .error e => .error e
      | .ok false => appendBranches g limit current rest seen
      | .ok true =>
        if limit ≤ (current ++ [goTrimSpace c]).length then
          .ok (current ++ [goTrimSpace c], goTrimSpace c :: seen)
        else appendBranches g limit (current ++ [goTrimSpace c]) rest (goTrimSpace c :: seen)

/-- internal/git/git.go `Navigator.RecentBranches` (lines 510-551):
non-positive limit short-circuits to the empty list; otherwise seed the
seen-set with the current branch, take reflog candidates first and, only
if they did not fill the limit, the commit-date fallback. -/
def RecentBranches (g : GitService) (limit : Int) : Except String (List String) :=
  if limit ≤ 0 then .ok []
  else
    match g.currentBranch with
    | .error e => .error e
    | .ok current =>
      match g.reflogBranchMoves with
      | .error e => .error e
      | .ok reflogBranches =>
        match appendBranches g limit.toNat [] reflogBranches [current] with
        | .error e => .error e
        | .ok (results, seen) =>
          if limit.toNat ≤ results.length then .ok results
          else
            match g.branchesByCommitDate with
            | .error e => .error e
            | .ok fallbackBranches =>
              match appendBranches g limit.toNat results fallbackBranches seen with
              | .error e => .error e
              | .ok (results2, _) => .ok results2

end navigator

namespace ui

open gostr

/-- src/unnamed/part_006 ANSI constants. -/
def clearScreen : String := "\x1b[2J\x1b[H"

def lineBreak : String := "\r\n"

def resetColor : String := "\x1b[0m"

/-- src/unnamed/part_006 `Theme`. -/
structure Theme where
  ActionLabel : String
  ActionDescription : String
  Branch : String
  Selected : String
  SelectedBadge : String
  Badge : String
  Help : String
deriving Repr, DecidableEq

/-- src/unnamed/part_006 `Theme{}`, the zero value. -/
def emptyTheme : Theme := ⟨"", "", "", "", "", "", ""⟩

/-- src/unnamed/part_006 `ThemeCatppuccin` (the other palettes are
analogous data and are not needed by any claim). -/
def ThemeCatppuccin : Theme :=
  ⟨"\x1b[1;38;5;111m", "\x1b[38;5;189m", "\x1b[38;5;188m", "\x1b[1;38;5;234;48;5;111m",
   "\x1b[1;38;5;151;48;5;111m", "\x1b[1;38;5;151m", "\x1b[38;5;246m"⟩

/-- src/unnamed/part_006 `DefaultTheme`. -/
def DefaultTheme : Theme := ThemeCatppuccin

/-- src/unnamed/part_006 `ActionDetails`. -/
structure ActionDetails where
  Name : String
  Description : String
  EnterLabel : String
deriving Repr, DecidableEq

/-- src/unnamed/part_006 `Branch`. -/
structure Branch where
  Name : String
  Current : Bool
deriving Repr, DecidableEq

/-- src/unnamed/part_006 `Result` (Branch, Quit, AlreadyOn fields). -/
structure Result where
  Branch : String
  Quit : Bool
  AlreadyOn : Bool
deriving Repr, DecidableEq

/-- src/unnamed/part_006 `UI` (the input/output streams are modelled as
the explicit byte list and write list threaded through `selectLoop`). -/
structure UI where
  action : ActionDetails
  theme : Theme
deriving Repr, DecidableEq

/-- src/unnamed/part_006 `UI.render`: one full frame, as the
concatenation of every write of that render call, in order. -/
def render (u : UI) (branches : List Branch) (selected : Nat) : String :=
  let theme := if u.theme = emptyTheme then DefaultTheme else u.theme
  let name := goTrimSpace u.action.Name
  let description := goTrimSpace u.action.Description
  let headerPrinted := name ≠ "" || description ≠ ""
  let header :=
    (if name ≠ "" then theme.ActionLabel ++ "Action: " ++ name ++ resetColor ++ lineBreak else "")
    ++ (if description ≠ "" then theme.ActionDescription ++ description ++ resetColor ++ lineBreak else "")
    ++ (if headerPrinted then lineBreak else "")
  let rows := (branches.enum.map fun p =>
    if p.1 = selected then
      if p.2.Current then
        theme.Selected ++ "> " ++ p.2.Name ++ " " ++ theme.SelectedBadge ++ "(current branch)"
          ++ resetColor ++ lineBreak
      else theme.Selected ++ "> " ++ p.2.Name ++ resetColor ++ lineBreak
    else if p.2.Current then
      "  " ++ theme.Branch ++ p.2.Name ++ resetColor ++ " " ++ theme.Badge ++ "(current branch)"
        ++ resetColor ++ lineBreak
    else "  " ++ theme.Branch ++ p.2.Name ++ resetColor ++ lineBreak).foldl (· ++ ·) ""
  let enterLabel0 := goTrimSpace u.action.EnterLabel
  let enterLabel := if enterLabel0 = "" then "select" else enterLabel0
  clearScreen ++ header
    ++ theme.Branch ++ "Select a branch:" ++ resetColor ++ lineBreak
    ++ rows ++ lineBreak
    ++ theme.Help ++ "j/k or ↑/↓ to move, Enter to " ++ enterLabel ++ ", q to exit"
    ++ resetColor ++ lineBreak

/-- src/unnamed/part_006 `UI.handleEscape`: consume up to two further
bytes of an escape sequence; returns the updated cursor, the remaining
input, and whether the cursor moved (`updated`).  End of input models
`io.EOF`, on which the Go code returns without change. -/
def handleEscape (index : Nat) (maxIndex : Int) : List Nat → Nat × List Nat × Bool
  | [] => (index, [], false)
  | next :: rest =>
    if next ≠ 91 then (index, rest, false)
    else
      match rest with
      | [] => (index, [], false)
      | dir :: rest2 =>
        if dir = 65 then
          if 0 < index then (index - 1, rest2, true) else (index, rest2, false)
        else if dir = 66 then
          if 0 ≤ maxIndex ∧ (index : Int) < maxIndex then (index + 1, rest2, true)
          else (index, rest2, false)
        else (index, rest2, false)

theorem handleEscape_input_le (index : Nat) (maxIndex : Int) (input : List Nat) :
    (handleEscape index maxIndex input).2.1.length ≤ input.length := by
  rcases input with _ | ⟨next, _ | ⟨dir, rest2⟩⟩ <;>
    simp only [handleEscape] <;> (try split_ifs) <;> simp <;> try omega

/-- src/unnamed/part_006 `UI.Select`, the keystroke loop.  Input is the
finite byte stream (exhaustion = `io.EOF`); `out` accumulates the writes
to the output stream; `visited` additionally records the cursor value at
every point where the Go code indexes `branches[index]`, so that
in-bounds indexing is observable.  The loop is structurally recursive on
the input, which witnesses termination for every finite input. -/
def selectLoop (u : UI) (branches : List Branch) (index : Nat) (input : List Nat)
    (out : List String) (visited : List Nat) : Result × List String × List Nat :=
  let maxIndex : Int := (branches.length : Int) - 1
  match input with
  | [] => (⟨"", true, false⟩, out, visited)
  | b :: rest =>
    if b = 3 ∨ b = 4 ∨ b = 26 then (⟨"", true, false⟩, out, visited)
    else if b = 106 then
      if (index : Int) < maxIndex then
        selectLoop u branches (index + 1) rest (out ++ [render u branches (index + 1)]) visited
      else selectLoop u branches index rest out visited
    else if b = 107 then
      if 0 < index then
        selectLoop u branches (index - 1) rest (out ++ [render u branches (index - 1)]) visited
      else selectLoop u branches index rest out visited
    else if b = 113 ∨ b = 81 then (⟨"", true, false⟩, out, visited)
    else if b = 13 ∨ b = 10 then
      if branches.isEmpty then (⟨"", true, false⟩, out, visited)
      else
        let selected := branches.getD index ⟨"", false⟩
        if selected.Current then
          (⟨selected.Name, false, true⟩,
            out ++ ["already on '" ++ selected.Name ++ "'" ++ lineBreak], visited ++ [index])
        else (⟨selected.Name, false, false⟩, out, visited ++ [index])
    else if b = 27 then
      let esc := handleEscape index maxIndex rest
      if esc.2.2 then
        selectLoop u branches esc.1 esc.2.1 (out ++ [render u branches esc.1]) visited
      else selectLoop u branches esc.1 esc.2.1 out visited
    else selectLoop u branches index rest out visited
termination_by input.length
decreasing_by
  all_goals simp_wf
  all_goals first
    | omega
    | (exact Nat.lt_succ_of_le (handleEscape_input_le _ _ _))

/-- src/unnamed/part_006 `UI.Select`: initial render at cursor 0, then
the loop.  (`enterRawMode` is a no-op here: the modelled input is not a
terminal file, the branch the Go code takes in headless use.) -/
def Select (u : UI) (branches : List Branch) (input : List Nat) :
    Result × List String × List Nat :=
  selectLoop u branches 0 input [render u branches 0] []

end ui

namespace ui

/-- C8: on a confirm byte (carriage return 13 or newline 10): an empty
candidate list yields the quit result with nothing further written; for
a cursor row marked current, the already-on line is written to the
output stream and the result is already-on with that row's name;
otherwise the result is selected with that row's name. -/
theorem select_confirm_key (u : UI) (branches : List Branch) (index : Nat)
    (rest : List Nat) (out : List String) (visited : List Nat) (b : Nat)
    (hb : b = 13 ∨ b = 10) :
    (branches = [] →
      selectLoop u branches index (b :: rest) out visited =
        (⟨"", true, false⟩, out, visited)) ∧
    (∀ h : index < branches.length,
      (branches[index].Current = true →
        selectLoop u branches index (b :: rest) out visited =
          (⟨branches[index].Name, false, true⟩,
            out ++ ["already on '" ++ branches[index].Name ++ "'" ++ lineBreak],
            visited ++ [index])) ∧
      (branches[index].Current = false →
        selectLoop u branches index (b :: rest) out visited =
          (⟨branches[index].Name, false, false⟩, out, visited ++ [index]))) := by
  rw [selectLoop]
  dsimp only
  rcases hb with rfl | rfl <;>
    [rw [if_neg (by decide : ¬ ((13 : Nat) = 3 ∨ (13 : Nat) = 4 ∨ (13 : Nat) = 26)),
        if_neg (by decide : ¬ (13 : Nat) = 106), if_neg (by decide : ¬ (13 : Nat) = 107),
        if_neg (by decide : ¬ ((13 : Nat) = 113 ∨ (13 : Nat) = 81)),
        if_pos (by decide : ((13 : Nat) = 13 ∨ (13 : Nat) = 10))];
     rw [if_neg (by decide : ¬ ((10 : Nat) = 3 ∨ (10 : Nat) = 4 ∨ (10 : Nat) = 26)),
        if_neg (by decide : ¬ (10 : Nat) = 106), if_neg (by decide : ¬ (10 : Nat) = 107),
        if_neg (by decide : ¬ ((10 : Nat) = 113 ∨ (10 : Nat) = 81)),
        if_pos (by decide : ((10 : Nat) = 13 ∨ (10 : Nat) = 10))]] <;>
  · constructor
    · intro hemp
      subst hemp
      simp
    · intro h
      have hne : ¬ branches.isEmpty = true := by
        rcases branches with _ | ⟨hd, tl⟩
        · simp at h
        · simp
      rw [if_neg hne]
      have hgetd : branches.getD index ⟨"", false⟩ = branches[index] := by
        rw [List.getD_eq_getElem?_getD, List.getElem?_eq_getElem h]
        rfl
      rw [hgetd]
      constructor
      · intro hcur
        rw [if_pos hcur]
      · intro hcur
        rw [if_neg (by simp [hcur])]

/-- Concrete list for the C8 witness. -/
def uiW : UI := ⟨⟨"Checkout branch", "Switch to the selected branch.",
  "checkout the selected branch"⟩, DefaultTheme⟩

theorem select_confirm_key_witness :
    selectLoop uiW [⟨"main", true⟩, ⟨"feature", false⟩] 0 [13] [] [] =
      (⟨"main", false, true⟩, [] ++ ["already on '" ++ "main" ++ "'" ++ lineBreak],
        [] ++ [0]) := by
  have h := select_confirm_key uiW [⟨"main", true⟩, ⟨"feature", false⟩] 0 [] [] [] 13
    (Or.inl rfl)
  exact (h.2 (by decide)).1 rfl

/-- C9: over candidates main (current) and feature, input bytes j then
carriage return move the cursor down once and confirm, returning the
selected result for feature, with neither quit nor already-on. -/
theorem select_j_enter_selects_feature :
    (Select uiW [⟨"main", true⟩, ⟨"feature", false⟩] [106, 13]).1 =
      ⟨"feature", false, false⟩ := by
  simp [Select, selectLoop]

/-- The escape handler keeps the cursor under `max 1 len` (clamping at 0
and at the last index). -/
theorem handleEscape_index_bound (index len : Nat) (l : List Nat)
    (h : index < max 1 len) :
    (handleEscape index ((len : Int) - 1) l).1 < max 1 len := by
  rcases l with _ | ⟨next, _ | ⟨dir, rest2⟩⟩ <;>
    simp only [handleEscape] <;> (try split_ifs) <;> simp <;> omega

/-- C10: for every candidate list, start cursor within bounds
(`index < max 1 length`, i.e. 0 for the empty list) and finite input,
the selection loop only ever indexes the candidate list at in-bounds
positions (`visited` records every index at which the Go code evaluates
`branches[index]`): movements clamp at 0 and at the last index,
unrecognized bytes and incomplete escape sequences leave the cursor
unchanged, and the list is indexed only when it is non-empty.
Termination for every finite input holds by construction: `selectLoop`
is a total function, recursing on a strictly shrinking input. -/
theorem selectLoop_index_safe (u : UI) :
    ∀ (input : List Nat) (branches : List Branch) (index : Nat) (out : List String)
      (visited : List Nat),
      index < max 1 branches.length →
      (∀ i ∈ visited, i < branches.length) →
      ∀ i ∈ (selectLoop u branches index input out visited).2.2, i < branches.length := by
  suffices H : ∀ (n : Nat) (input : List Nat), input.length ≤ n →
      ∀ (branches : List Branch) (index : Nat) (out : List String) (visited : List Nat),
      index < max 1 branches.length →
      (∀ i ∈ visited, i < branches.length) →
      ∀ i ∈ (selectLoop u branches index input out visited).2.2, i < branches.length by
    exact fun input => H input.length input le_rfl
  intro n
  induction n with
  | zero =>
    intro input hlen branches index out visited hidx hvis
    have : input = [] := by
      rcases input with _ | ⟨b, rest⟩
      · rfl
      · simp at hlen
    subst this
    rw [selectLoop]
    exact hvis
  | succ n ih =>
    intro input hlen branches index out visited hidx hvis
    rcases input with _ | ⟨b, rest⟩
    · rw [selectLoop]
      exact hvis
    have hrest : rest.length ≤ n := by
      simp only [List.length_cons] at hlen
      omega
    rw [selectLoop]
    dsimp only
    by_cases h1 : b = 3 ∨ b = 4 ∨ b = 26
    · rw [if_pos h1]
      exact hvis
    rw [if_neg h1]
    by_cases h2 : b = 106
    · rw [if_pos h2]
      by_cases hj : (index : Int) < (branches.length : Int) - 1
      · rw [if_pos hj]
        exact ih rest hrest branches (index + 1) _ visited (by omega) hvis
      · rw [if_neg hj]
        exact ih rest hrest branches index out visited hidx hvis
    rw [if_neg h2]
    by_cases h3 : b = 107
    · rw [if_pos h3]
      by_cases hk : 0 < index
      · rw [if_pos hk]
        exact ih rest hrest branches (index - 1) _ visited (by omega) hvis
      · rw [if_neg hk]
        exact ih rest hrest branches index out visited hidx hvis
    rw [if_neg h3]
    by_cases h4 : b = 113 ∨ b = 81
    · rw [if_pos h4]
      exact hvis
    rw [if_neg h4]
    by_cases h5 : b = 13 ∨ b = 10
    · rw [if_pos h5]
      by_cases hemp : branches.isEmpty = true
      · rw [if_pos hemp]
        exact hvis
      · rw [if_neg hemp]
        have hlenpos : 0 < branches.length := by
          rcases branches with _ | ⟨hd, tl⟩
          · simp at hemp
          · simp
        have hinb : index < branches.length := by omega
        by_cases hcur : (branches.getD index ⟨"", false⟩).Current = true
        · rw [if_pos hcur]
          intro i hi
          rcases List.mem_append.mp hi with hi | hi
          · exact hvis i hi
          · simp only [List.mem_singleton] at hi
            omega
        · rw [if_neg hcur]
          intro i hi
          rcases List.mem_append.mp hi with hi | hi
          · exact hvis i hi
          · simp only [List.mem_singleton] at hi
            omega
    rw [if_neg h5]
    by_cases h6 : b = 27
    · rw [if_pos h6]
      have hesc := handleEscape_index_bound index branches.length rest hidx
      have hesclen := handleEscape_input_le index ((branches.length : Int) - 1) rest
      by_cases hupd : (handleEscape index ((branches.length : Int) - 1) rest).2.2 = true
      · rw [if_pos hupd]
        exact ih _ (by omega) branches _ _ visited hesc hvis
      · rw [if_neg hupd]
        exact ih _ (by omega) branches _ _ visited hesc hvis
    · rw [if_neg h6]
      exact ih rest hrest branches index out visited hidx hvis

theorem selectLoop_index_safe_witness :
    (0 < max 1 ([⟨"main", true⟩, ⟨"feature", false⟩] : List Branch).length ∧
      (∀ i ∈ ([] : List Nat), i < 2)) ∧
      ∀ i ∈ (selectLoop uiW [⟨"main", true⟩, ⟨"feature", false⟩] 0 [106, 13]
        [] []).2.2, i < ([⟨"main", true⟩, ⟨"feature", false⟩] : List Branch).length :=
  ⟨⟨by decide, by simp⟩,
    selectLoop_index_safe uiW [106, 13] [⟨"main", true⟩, ⟨"feature", false⟩] 0 [] []
      (by decide) (by simp)⟩

end ui

namespace app

open gostr

/-- A Go `error` as seen by internal/app/app.go: its message text
(`err.Error()`), and whether `errors.Is(err, git.ErrBranchNotFullyMerged)`
holds for it. -/
structure GoError where
  msg : String
  notFullyMerged : Bool
deriving Repr, DecidableEq

/-- internal/git `MergeResult`. -/
structure MergeResult where
  Stdout : String
  Stderr : String
deriving Repr, DecidableEq

/-- internal/git `DeleteResult`. -/
structure DeleteResult where
  Stdout : String
  Stderr : String
deriving Repr, DecidableEq

/-- One `bufio.Reader.ReadString('\n')` call on the confirmation input:
a full line (newline seen), a final partial line at end of stream
(`io.EOF`), or a read failure with its message. -/
inductive ReadLine where
  | full (line : String)
  | eof (line : String)
  | fail (msg : String)
deriving Repr, DecidableEq

/-- internal/app/app.go `printIfNotEmpty`: append the trimmed message to
the stream when it is non-blank. -/
def printIfNotEmpty (w : List String) (message : String) : List String :=
  if goTrimSpace message ≠ "" then w ++ [goTrimSpace message] else w

/-- internal/app/app.go `confirmBranchDeletion` (lines 180-198): print the
prompt, read one line; a non-EOF read error propagates; an empty trimmed
line is a refusal; otherwise affirmative iff the lowercased line is
"y" or "yes". -/
def confirmBranchDeletion (read : ReadLine) (out : List String) (branch : String) :
    List String × Except GoError Bool :=
  let out := out ++ ["Branch '" ++ branch ++ "' is not fully merged. Delete anyway? [y/N]: "]
  match read with
  | .fail m => (out, .error ⟨m, false⟩)
  | .full line | .eof line =>
    let line := goTrimSpace line
    if line = "" then (out, .ok false)
    else (out, .ok (goToLower line = "y" || goToLower line = "yes"))

/-- internal/app/app.go `handleDelete` (lines 149-178).  `delete` is the
abstract `GitClient.DeleteBranch` (argument = the `Force` option);
besides the two streams and the returned error, the trace of delete
invocations (their `Force` flags, in order) is returned so that
"no second invocation" is observable. -/
def handleDelete (delete : Bool → DeleteResult × Option GoError) (read : ReadLine)
    (branch : String) (out errOut : List String) :
    List String × List String × Option GoError × List Bool :=
  let r := delete false
  match r.2 with
  | none => (printIfNotEmpty out r.1.Stdout, printIfNotEmpty errOut r.1.Stderr, none, [false])
  | some e =>
    if e.notFullyMerged then
      let errOut := printIfNotEmpty errOut r.1.Stderr
      let c := confirmBranchDeletion read out branch
      match c.2 with
      | .error confirmErr => (c.1, errOut, some confirmErr, [false])
      | .ok false => (c.1, errOut, some ⟨"branch deletion aborted", false⟩, [false])
      | .ok true =>
        let f := delete true
        match f.2 with
        | some forceErr => (c.1, printIfNotEmpty errOut f.1.Stderr, some forceErr, [false, true])
        | none =>
          (printIfNotEmpty c.1 f.1.Stdout, printIfNotEmpty errOut f.1.Stderr, none, [false, true])
    else (out, printIfNotEmpty errOut r.1.Stderr, some e, [false])

/-- The dependencies of internal/app/app.go `Run`, as oracles: each
collaborator call's outcome.  `validateDeps` always succeeds here (every
field is present by construction). -/
structure RunDeps where
  recentBranches : Int → Except GoError (List String)
  gitCurrentBranch : Except GoError String
  select : List ui.Branch → Except GoError ui.Result
  checkoutBranch : String → Except GoError String
  mergeBranch : String → MergeResult × Option GoError
  deleteBranch : String → Bool → DeleteResult × Option GoError
  readLine : ReadLine

/-- internal/app/app.go `Run` (lines 52-128): returns the exit code, the
Output stream and the Error stream (each a list of writes, in order).
Go's `Action` is a string type, so the action is a `String` compared
against the three constants, with the default diagnostic branch. -/
def Run (action : String) (limit : Int) (deps : RunDeps) : Int × List String × List String :=
  if limit ≤ 0 then (2, [], ["limit must be greater than 0"])
  else
    match deps.recentBranches limit with
    | .error e => (1, [], [e.msg])
    | .ok branches =>
      match deps.gitCurrentBranch with
      | .error e => (1, [], [e.msg])
      | .ok current =>
        let candidates : List ui.Branch :=
          ⟨current, true⟩ :: branches.map (fun b => ⟨b, false⟩)
        match deps.select candidates with
        | .error e => (1, [], [e.msg])
        | .ok result =>
          if result.Quit || result.AlreadyOn then (0, [], [])
          else if action = "checkout" then
            match deps.checkoutBranch result.Branch with
            | .error e => (1, [], [e.msg])
            | .ok message => (0, printIfNotEmpty [] message, [])
          else if action = "merge" then
            let m := deps.mergeBranch result.Branch
            let out := printIfNotEmpty [] m.1.Stdout
            let stderrOutput := goTrimSpace m.1.Stderr
            match m.2 with
            | some e =>
              if stderrOutput ≠ "" then
                if goContains e.msg stderrOutput = false then (1, out, [stderrOutput, e.msg])
                else (1, out, [stderrOutput])
              else (1, out, [e.msg])
            | none =>
              if stderrOutput ≠ "" then (0, out, [stderrOutput]) else (0, out, [])
          else if action = "delete" then
            match handleDelete (deps.deleteBranch result.Branch) deps.readLine result.Branch [] [] with
            | (out, errOut, some e, _) => (1, out, errOut ++ [e.msg])
            | (out, errOut, none, _) => (0, out, errOut)
          else (2, [], [action ++ " action is not implemented yet"])

/-- The confirmation answer read from `read`, as computed by
`confirmBranchDeletion` (helper for the delete-flow proofs). -/
theorem confirmBranchDeletion_answer (line branch : String) (out : List String)
    (read : ReadLine) (hread : read = .full line ∨ read = .eof line) :
    (confirmBranchDeletion read out branch).2 =
      (if goTrimSpace line = "" then Except.ok false
       else Except.ok (goToLower (goTrimSpace line) = "y"
         || goToLower (goTrimSpace line) = "yes")) := by
  rcases hread with rfl | rfl <;> unfold confirmBranchDeletion <;> dsimp only <;>
    by_cases hl : goTrimSpace line = "" <;> simp [hl]

/-- C4: after a non-forced delete fails as not-fully-merged, a
non-affirmative confirmation line (anything whose trimmed lowercase form
is neither "y" nor "yes", including an empty line, also at end of
stream) leaves the invocation trace at the single non-forced call and
fails with the literal "branch deletion aborted" error, while an
affirmative line produces exactly one forced retry. -/
theorem handleDelete_confirm_protocol
    (delete : Bool → DeleteResult × Option GoError) (read : ReadLine)
    (branch line : String) (out errOut : List String) (res : DeleteResult) (e : GoError)
    (hdel : delete false = (res, some e))
    (hnfm : e.notFullyMerged = true)
    (hread : read = .full line ∨ read = .eof line) :
    (¬(goTrimSpace line ≠ "" ∧
        (goToLower (goTrimSpace line) = "y" ∨ goToLower (goTrimSpace line) = "yes")) →
      (handleDelete delete read branch out errOut).2.2.2 = [false] ∧
        (handleDelete delete read branch out errOut).2.2.1 =
          some ⟨"branch deletion aborted", false⟩) ∧
    ((goTrimSpace line ≠ "" ∧
        (goToLower (goTrimSpace line) = "y" ∨ goToLower (goTrimSpace line) = "yes")) →
      (handleDelete delete read branch out errOut).2.2.2 = [false, true]) := by
  have hc := confirmBranchDeletion_answer line branch out read hread
  unfold handleDelete
  rw [hdel]
  dsimp only
  rw [if_pos hnfm, hc]
  by_cases hl : goTrimSpace line = ""
  · rw [if_pos hl]
    dsimp only
    constructor
    · intro _
      exact ⟨rfl, rfl⟩
    · intro haff
      exact absurd hl haff.1
  · rw [if_neg hl]
    by_cases hy : (goToLower (goTrimSpace line) = "y" || goToLower (goTrimSpace line) = "yes")
      = true
    · rw [hy]
      dsimp only
      constructor
      · intro hneg
        simp only [Bool.or_eq_true, decide_eq_true_eq] at hy
        exact absurd ⟨hl, hy⟩ hneg
      · intro _
        rcases hf : delete true with ⟨fres, ferr⟩
        rcases ferr with _ | fe <;> rfl
    · rw [Bool.not_eq_true] at hy
      rw [hy]
      dsimp only
      constructor
      · intro _
        exact ⟨rfl, rfl⟩
      · intro haff
        rcases haff with ⟨-, hyy⟩
        simp only [Bool.or_eq_false_iff, decide_eq_false_iff_not] at hy
        rcases hyy with hyy | hyy
        · exact absurd hyy hy.1
        · exact absurd hyy hy.2

/-- Concrete delete client for the C4 witness: the non-forced delete
fails as not-fully-merged, the forced one succeeds. -/
def deleteC4 : Bool → DeleteResult × Option GoError :=
  fun b => if b then (⟨"Deleted branch feat", ""⟩, none)
    else (⟨"", "warning: not fully merged"⟩, some ⟨"branch not fully merged", true⟩)

theorem handleDelete_confirm_protocol_witness :
    (handleDelete deleteC4 (.full "n") "feat" [] []).2.2.2 = [false] ∧
      (handleDelete deleteC4 (.full "n") "feat" [] []).2.2.1 =
        some ⟨"branch deletion aborted", false⟩ := by
  have h := handleDelete_confirm_protocol deleteC4 (.full "n") "feat" "n" [] []
    ⟨"", "warning: not fully merged"⟩ ⟨"branch not fully merged", true⟩ rfl rfl (Or.inl rfl)
  exact h.1 (by decide)

/-- Concrete dependencies for the C5 counterexample and witness: the
merge fails with message "boom" while its stderr "xx boom yy" strictly
contains that message. -/
def depsC5 : RunDeps where
  recentBranches := fun _ => .ok ["feature"]
  gitCurrentBranch := .ok "main"
  select := fun _ => .ok ⟨"feature", false, false⟩
  checkoutBranch := fun _ => .ok ""
  mergeBranch := fun _ => (⟨"", "xx boom yy"⟩, some ⟨"boom", false⟩)
  deleteBranch := fun _ _ => (⟨"", ""⟩, none)
  readLine := .eof ""

/-- C5 counterexample: here the underlying failure message "boom" IS a
substring of the printed stderr "xx boom yy", yet `Run` still prints it
(the Error stream ends with it): the code suppresses the failure message
only when the printed stderr is a substring of the failure message
(`strings.Contains(err.Error(), stderrOutput)`), not the direction the
claim states. -/
theorem run_merge_contains_direction_cx :
    goContains "xx boom yy" "boom" = true ∧
      Run "merge" 10 depsC5 = (1, [], ["xx boom yy", "boom"]) := by
  exact ⟨by decide, rfl⟩

/-- C5 amended: for the merge action, `Run` prints the non-empty trimmed
merge stdout as the whole Output stream (hence first); on failure it
prints the non-empty stderr and additionally the failure message exactly
when the printed stderr is NOT a substring of the failure message; on
success it still prints the non-empty stderr. -/
theorem run_merge_output_protocol (deps : RunDeps) (limit : Int)
    (branches : List String) (current : String) (result : ui.Result)
    (mres : MergeResult) (err : Option GoError)
    (hpos : 0 < limit)
    (hrb : deps.recentBranches limit = .ok branches)
    (hcb : deps.gitCurrentBranch = .ok current)
    (hsel : deps.select (⟨current, true⟩ :: branches.map (fun b => ⟨b, false⟩)) = .ok result)
    (hq : result.Quit = false) (ha : result.AlreadyOn = false)
    (hm : deps.mergeBranch result.Branch = (mres, err)) :
    (Run "merge" limit deps).2.1 = printIfNotEmpty [] mres.Stdout ∧
    (∀ e, err = some e →
      (Run "merge" limit deps).1 = 1 ∧
      (Run "merge" limit deps).2.2 =
        (if goTrimSpace mres.Stderr = "" then [e.msg]
         else if goContains e.msg (goTrimSpace mres.Stderr) then [goTrimSpace mres.Stderr]
         else [goTrimSpace mres.Stderr, e.msg])) ∧
    (err = none →
      (Run "merge" limit deps).1 = 0 ∧
      (Run "merge" limit deps).2.2 =
        (if goTrimSpace mres.Stderr = "" then [] else [goTrimSpace mres.Stderr])) := by
  unfold Run
  rw [if_neg (by omega : ¬ limit ≤ 0), hrb]
  dsimp only
  rw [hcb]
  dsimp only
  rw [hsel]
  dsimp only
  rw [hq, ha]
  simp only [Bool.or_self, Bool.false_eq_true, if_false]
  rw [if_neg (by decide : ¬ ("merge" : String) = "checkout")]
  simp only [if_true]
  rw [hm]
  dsimp only
  rcases err with _ | e
  · refine ⟨?_, fun e he => absurd he (by simp), fun _ => ?_⟩
    · dsimp only
      by_cases hse : goTrimSpace mres.Stderr = "" <;> simp [hse]
    · dsimp only
      by_cases hse : goTrimSpace mres.Stderr = "" <;> simp [hse]
  · refine ⟨?_, fun e2 he => ?_, fun he => absurd he (by simp)⟩
    · dsimp only
      by_cases hse : goTrimSpace mres.Stderr = "" <;>
        by_cases hco : goContains e.msg (goTrimSpace mres.Stderr) = true <;>
        simp [hse, hco]
    · injection he with he
      subst he
      dsimp only
      by_cases hse : goTrimSpace mres.Stderr = "" <;>
        by_cases hco : goContains e.msg (goTrimSpace mres.Stderr) = true <;>
        simp [hse, hco]

theorem run_merge_output_protocol_witness :
    (Run "merge" 10 depsC5).2.1 = printIfNotEmpty [] "" ∧
      (Run "merge" 10 depsC5).1 = 1 ∧
      (Run "merge" 10 depsC5).2.2 =
        (if goTrimSpace "xx boom yy" = "" then ["boom"]
         else if goContains "boom" (goTrimSpace "xx boom yy") then [goTrimSpace "xx boom yy"]
         else [goTrimSpace "xx boom yy", "boom"]) := by
  have h := run_merge_output_protocol depsC5 10 ["feature"] "main" ⟨"feature", false, false⟩
    ⟨"", "xx boom yy"⟩ (some ⟨"boom", false⟩) (by norm_num) rfl rfl rfl rfl rfl rfl
  exact ⟨h.1, (h.2.1 ⟨"boom", false⟩ rfl).1, (h.2.1 ⟨"boom", false⟩ rfl).2⟩

end app

namespace navigator

open gostr

/-- Combined loop invariants of `appendBranches`: the input list is a
prefix of the output; the appended part is a subsequence of the trimmed
candidates; the seen-set only grows; every output entry was either
already present or was not in the initial seen-set; the limit caps the
output; no-duplicate and covered-by-seen are preserved. -/
theorem appendBranches_invariants (g : GitService) (limit : Nat) :
    ∀ (cands current seen res seen2 : List String),
    appendBranches g limit current cands seen = .ok (res, seen2) →
    (∃ extra, res = current ++ extra ∧ extra.Sublist (cands.map goTrimSpace)) ∧
    (∀ x ∈ seen, x ∈ seen2) ∧
    (∀ x ∈ res, x ∈ current ∨ x ∉ seen) ∧
    (current.length < limit → res.length ≤ limit) ∧
    (current.Nodup → (∀ x ∈ current, x ∈ seen) → res.Nodup ∧ ∀ x ∈ res, x ∈ seen2) := by
  intro cands
  induction cands with
  | nil =>
    intro current seen res seen2 h
    simp only [appendBranches, Except.ok.injEq, Prod.mk.injEq] at h
    obtain ⟨rfl, rfl⟩ := h
    refine ⟨⟨[], by simp, by simp⟩, fun x hx => hx, fun x hx => Or.inl hx, ?_, ?_⟩
    · intro hlt; omega
    · intro hnd hsub; exact ⟨hnd, hsub⟩
  | cons c rest ih =>
    intro current seen res seen2 h
    simp only [appendBranches] at h
    by_cases hc : goTrimSpace c = ""
    · rw [if_pos hc] at h
      obtain ⟨⟨extra, rfl, hsub⟩, hmono, hnew, hlen, hnd⟩ := ih current seen res seen2 h
      exact ⟨⟨extra, rfl, hsub.cons _⟩, hmono, hnew, hlen, hnd⟩
    · rw [if_neg hc] at h
      by_cases hs : seen.contains (goTrimSpace c)
      · rw [if_pos hs] at h
        obtain ⟨⟨extra, rfl, hsub⟩, hmono, hnew, hlen, hnd⟩ := ih current seen res seen2 h
        exact ⟨⟨extra, rfl, hsub.cons _⟩, hmono, hnew, hlen, hnd⟩
      · rw [if_neg hs] at h
        have hsmem : goTrimSpace c ∉ seen := by
          simpa using hs
        rcases hbe : g.branchExists (goTrimSpace c) with e | b
        · rw [hbe] at h; simp at h
        · rw [hbe] at h
          rcases b with _ | _
          · simp only at h
            obtain ⟨⟨extra, rfl, hsub⟩, hmono, hnew, hlen, hnd⟩ := ih current seen res seen2 h
            exact ⟨⟨extra, rfl, hsub.cons _⟩, hmono, hnew, hlen, hnd⟩
          · simp only at h
            by_cases hlim : limit ≤ (current ++ [goTrimSpace c]).length
            · rw [if_pos hlim] at h
              simp only [Except.ok.injEq, Prod.mk.injEq] at h
              obtain ⟨rfl, rfl⟩ := h
              refine ⟨⟨[goTrimSpace c], rfl, (List.nil_sublist _).cons₂ _⟩, ?_, ?_, ?_, ?_⟩
              · intro x hx; exact List.mem_cons_of_mem _ hx
              · intro x hx
                rcases List.mem_append.mp hx with hx | hx
                · exact Or.inl hx
                · simp only [List.mem_singleton] at hx
                  exact Or.inr (hx ▸ hsmem)
              · intro hlt
                simp only [List.length_append, List.length_singleton]
                omega
              · intro hcur hcov
                have hnotc : goTrimSpace c ∉ current := fun hmem => hsmem (hcov _ hmem)
                constructor
                · simp [List.nodup_append, hcur, hnotc]
                · intro x hx
                  rcases List.mem_append.mp hx with hx | hx
                  · exact List.mem_cons_of_mem _ (hcov _ hx)
                  · simp only [List.mem_singleton] at hx
                    exact hx ▸ List.mem_cons_self _ _
            · rw [if_neg hlim] at h
              obtain ⟨⟨extra, hres, hsub⟩, hmono, hnew, hlen, hnd⟩ :=
                ih (current ++ [goTrimSpace c]) (goTrimSpace c :: seen) res seen2 h
              have hnotc : ∀ x ∈ res, x ∈ current ∨ x ∉ seen := by
                intro x hx
                rcases hnew x hx with hx2 | hx2
                · rcases List.mem_append.mp hx2 with hx3 | hx3
                  · exact Or.inl hx3
                  · simp only [List.mem_singleton] at hx3
                    exact Or.inr (hx3 ▸ hsmem)
                · exact Or.inr (fun hmem => hx2 (List.mem_cons_of_mem _ hmem))
              refine ⟨⟨goTrimSpace c :: extra, by simpa using hres, hsub.cons₂ _⟩, ?_, hnotc, ?_, ?_⟩
              · intro x hx; exact hmono x (List.mem_cons_of_mem _ hx)
              · intro hlt
                apply hlen
                simp only [List.length_append, List.length_singleton] at hlim ⊢
                omega
              · intro hcur hcov
                have hnotc2 : goTrimSpace c ∉ current := fun hmem => hsmem (hcov _ hmem)
                apply hnd
                · simp [List.nodup_append, hcur, hnotc2]
                · intro x hx
                  rcases List.mem_append.mp hx with hx | hx
                  · exact List.mem_cons_of_mem _ (hcov _ hx)
                  · simp only [List.mem_singleton] at hx
                    exact hx ▸ List.mem_cons_self _ _

/-- Anatomy of a successful `RecentBranches` run with a positive limit:
the current branch and the reflog were fetched, the reflog phase ran,
and either it already filled the limit (its output is returned) or the
fallback phase ran on its output and seen-set. -/
theorem recentBranches_ok_cases (g : GitService) (limit : Int) (res : List String)
    (hpos : 0 < limit) (h : RecentBranches g limit = .ok res) :
    ∃ cur reflog res1 seen1,
      g.currentBranch = .ok cur ∧ g.reflogBranchMoves = .ok reflog ∧
      appendBranches g limit.toNat [] reflog [cur] = .ok (res1, seen1) ∧
      ((limit.toNat ≤ res1.length ∧ res = res1) ∨
       (res1.length < limit.toNat ∧ ∃ fallback seen2,
          g.branchesByCommitDate = .ok fallback ∧
          appendBranches g limit.toNat res1 fallback seen1 = .ok (res, seen2))) := by
  unfold RecentBranches at h
  rw [if_neg (by omega : ¬ limit ≤ 0)] at h
  rcases hcur : g.currentBranch with e | cur <;> rw [hcur] at h
  · simp at h
  rcases hreflog : g.reflogBranchMoves with e | reflog <;> rw [hreflog] at h
  · simp at h
  dsimp only at h
  rcases hab : appendBranches g limit.toNat [] reflog [cur] with e | ⟨res1, seen1⟩ <;>
    rw [hab] at h
  · simp at h
  dsimp only at h
  by_cases hfull : limit.toNat ≤ res1.length
  · rw [if_pos hfull] at h
    simp only [Except.ok.injEq] at h
    exact ⟨cur, reflog, res1, seen1, rfl, rfl, hab, Or.inl ⟨hfull, h.symm⟩⟩
  · rw [if_neg hfull] at h
    rcases hfb : g.branchesByCommitDate with e | fallback <;> rw [hfb] at h
    · simp at h
    dsimp only at h
    rcases hab2 : appendBranches g limit.toNat res1 fallback seen1 with e | ⟨res2, seen2⟩ <;>
      rw [hab2] at h
    · simp at h
    simp only [Except.ok.injEq] at h
    exact ⟨cur, reflog, res1, seen1, rfl, rfl, hab,
      Or.inr ⟨by omega, fallback, seen2, rfl, h ▸ hab2⟩⟩

/-- C1: for every limit L > 0 and every combination of results from the
two data sources, the list returned by `Navigator.RecentBranches` has
length at most L, contains no branch name twice, and never contains the
current branch name. -/
theorem recentBranches_cap_nodup_nocurrent (g : GitService) (limit : Int) (cur : String)
    (res : List String) (hpos : 0 < limit) (hcur : g.currentBranch = .ok cur)
    (h : RecentBranches g limit = .ok res) :
    (res.length : Int) ≤ limit ∧ res.Nodup ∧ cur ∉ res := by
  obtain ⟨cur2, reflog, res1, seen1, hcur2, hreflog, hab, hrest⟩ :=
    recentBranches_ok_cases g limit res hpos h
  rw [hcur] at hcur2
  injection hcur2 with hcureq
  subst hcureq
  obtain ⟨inv1a, inv2a, inv3a, inv4a, inv5a⟩ :=
    appendBranches_invariants g limit.toNat reflog [] [cur] res1 seen1 hab
  have hres1len : res1.length ≤ limit.toNat := inv4a (by simp; omega)
  obtain ⟨hres1nd, hres1seen⟩ := inv5a (by simp) (by simp)
  have hres1cur : cur ∉ res1 := by
    intro hm
    rcases inv3a cur hm with h2 | h2
    · simp at h2
    · exact h2 (by simp)
  have hcurseen1 : cur ∈ seen1 := inv2a cur (by simp)
  rcases hrest with ⟨hfull, rfl⟩ | ⟨hlt, fallback, seen2, hfb, hab2⟩
  · exact ⟨by omega, hres1nd, hres1cur⟩
  · obtain ⟨inv1b, inv2b, inv3b, inv4b, inv5b⟩ :=
      appendBranches_invariants g limit.toNat fallback res1 seen1 res seen2 hab2
    have hreslen : res.length ≤ limit.toNat := inv4b hlt
    obtain ⟨hnd, _⟩ := inv5b hres1nd hres1seen
    refine ⟨by omega, hnd, ?_⟩
    intro hm
    rcases inv3b cur hm with h2 | h2
    · exact hres1cur h2
    · exact h2 hcurseen1

/-- Concrete service for the C1 witness. -/
def gC1 : GitService :=
  ⟨.ok "main", .ok ["feat", "main"], .ok ["dev"],
    fun b => .ok (b == "feat" || b == "dev")⟩

theorem recentBranches_cap_nodup_nocurrent_witness :
    (0 : Int) < 2 ∧ gC1.currentBranch = .ok "main" ∧
      RecentBranches gC1 2 = .ok ["feat", "dev"] ∧
      ((["feat", "dev"].length : Int) ≤ 2 ∧ ["feat", "dev"].Nodup ∧
        "main" ∉ ["feat", "dev"]) :=
  ⟨by norm_num, rfl, rfl,
    recentBranches_cap_nodup_nocurrent gC1 2 "main" ["feat", "dev"] (by norm_num) rfl rfl⟩

/-- C2: whenever both data sources are consulted (the reflog phase
produced `res1` with fewer than `limit` names), the returned list is
`res1` followed by fallback-accepted names: the reflog-phase names form
a prefix (in reflog order, a subsequence of the trimmed reflog), and the
rest is a subsequence of the trimmed fallback list. -/
theorem recentBranches_history_precedes_fallback (g : GitService) (limit : Int)
    (cur : String) (reflog fallback res1 seen1 res : List String)
    (hpos : 0 < limit)
    (hcur : g.currentBranch = .ok cur)
    (hreflog : g.reflogBranchMoves = .ok reflog)
    (hab : appendBranches g limit.toNat [] reflog [cur] = .ok (res1, seen1))
    (hlt : res1.length < limit.toNat)
    (hfb : g.branchesByCommitDate = .ok fallback)
    (h : RecentBranches g limit = .ok res) :
    res1 <+: res ∧ res1.Sublist (reflog.map goTrimSpace) ∧
      (res.drop res1.length).Sublist (fallback.map goTrimSpace) := by
  unfold RecentBranches at h
  rw [if_neg (by omega : ¬ limit ≤ 0), hcur] at h
  dsimp only at h
  rw [hreflog] at h
  dsimp only at h
  rw [hab] at h
  dsimp only at h
  rw [if_neg (by omega : ¬ limit.toNat ≤ res1.length)] at h
  rw [hfb] at h
  dsimp only at h
  rcases hab2 : appendBranches g limit.toNat res1 fallback seen1 with e | ⟨res2, seen2⟩ <;>
    rw [hab2] at h
  · simp at h
  simp only [Except.ok.injEq] at h
  subst h
  obtain ⟨⟨e1, he1, hs1⟩, -, -, -, -⟩ :=
    appendBranches_invariants g limit.toNat reflog [] [cur] res1 seen1 hab
  obtain ⟨⟨e2, he2, hs2⟩, -, -, -, -⟩ :=
    appendBranches_invariants g limit.toNat fallback res1 seen1 res2 seen2 hab2
  refine ⟨⟨e2, he2.symm⟩, ?_, ?_⟩
  · rw [he1]
    simpa using hs1
  · rw [he2, List.drop_left]
    exact hs2

/-- Concrete service for the C2 witness. -/
def gC2 : GitService :=
  ⟨.ok "main", .ok ["h1"], .ok ["f1"], fun b => .ok (b == "h1" || b == "f1")⟩

theorem recentBranches_history_precedes_fallback_witness :
    appendBranches gC2 (3 : Int).toNat [] ["h1"] ["main"] = .ok (["h1"], ["h1", "main"]) ∧
      RecentBranches gC2 3 = .ok ["h1", "f1"] ∧
      (["h1"] <+: ["h1", "f1"] ∧ (["h1"] : List String).Sublist (["h1"].map goTrimSpace) ∧
        ((["h1", "f1"] : List String).drop 1).Sublist (["f1"].map goTrimSpace)) :=
  ⟨rfl, rfl,
    recentBranches_history_precedes_fallback gC2 3 "main" ["h1"] ["f1"] ["h1"]
      ["h1", "main"] ["h1", "f1"] (by norm_num) rfl rfl rfl (by decide) rfl rfl⟩

/-- C7: a candidate whose existence check errors makes `appendBranches`
return that error (and `RecentBranches` propagates it, returning no
list), while a false-with-no-error check merely skips the candidate. -/
theorem appendBranches_exists_check (g : GitService) (limit : Nat) (current seen : List String)
    (c : String) (rest : List String) (e : String) :
    (goTrimSpace c ≠ "" → goTrimSpace c ∉ seen →
       g.branchExists (goTrimSpace c) = .error e →
       appendBranches g limit current (c :: rest) seen = .error e) ∧
    (g.branchExists (goTrimSpace c) = .ok false →
       appendBranches g limit current (c :: rest) seen =
         appendBranches g limit current rest seen) ∧
    (∀ (lim : Int) (cur : String) (reflog : List String), 0 < lim →
       g.currentBranch = .ok cur → g.reflogBranchMoves = .ok reflog →
       appendBranches g lim.toNat [] reflog [cur] = .error e →
       RecentBranches g lim = .error e) := by
  refine ⟨?_, ?_, ?_⟩
  · intro hne hns hbe
    simp only [appendBranches]
    rw [if_neg hne, if_neg (by simpa using hns), hbe]
  · intro hbe
    simp only [appendBranches]
    by_cases hne : goTrimSpace c = ""
    · rw [if_pos hne]
    · rw [if_neg hne]
      by_cases hns : seen.contains (goTrimSpace c) = true
      · rw [if_pos hns]
      · rw [if_neg hns, hbe]
  · intro lim cur reflog hpos hcur hreflog hab
    unfold RecentBranches
    rw [if_neg (by omega : ¬ lim ≤ 0), hcur]
    dsimp only
    rw [hreflog]
    dsimp only
    rw [hab]

/-- Concrete service for the C7 witness: the existence check always fails. -/
def gC7 : GitService :=
  ⟨.ok "main", .ok ["bad"], .ok [], fun _ => .error "boom"⟩

theorem appendBranches_exists_check_witness :
    appendBranches gC7 1 [] ["bad"] ["main"] = .error "boom" ∧
      RecentBranches gC7 1 = .error "boom" := by
  have h := appendBranches_exists_check gC7 1 [] ["main"] "bad" [] "boom"
  have h1 := h.1 (by decide) (by decide) rfl
  exact ⟨h1, h.2.2 1 "main" ["bad"] (by norm_num) rfl rfl h1⟩

end navigator
